import Mathlib

/-!
Shallow embedding of `src/torchdp/utils.py` (module-tree traversal and
normalization-layer replacement utilities).

A PyTorch `nn.Module` is modelled as a finite rose tree: a runtime class
tag, the numeric attributes the code reads (`num_features`, `num_groups`,
`affine`), and an ordered association list `_modules` from child name to
child module (Python dicts preserve insertion order; keys are unique).

Python's `isinstance` is subclass-inclusive; the class table below contains
exactly the classes the source mentions, with `BatchNorm{1,2,3}d` proper
subclasses of `_BatchNorm` and everything a subclass of `nn.Module`.

Exceptions (KeyError on a missing `_modules` entry, the `TypeError` raised
when `matchDim()` returns `None` and is called) are modelled by `Option`:
`none` is a raised exception. Converters are `Module → Option Module`.

`named_modules()` is a generator that yields a node before descending into
it and binds each child object before the loop body can mutate the parent
entry, so the sequence of (dotted name, node) pairs it produces is the
preorder enumeration of the tree as it stood when the call started; it is
embedded as the eager preorder list `namedModules`.
-/

set_option maxHeartbeats 1000000

namespace TorchDP

/-- The Python classes the source mentions. `module` is `nn.Module`,
`batchNormBase` is `nn.modules.batchnorm._BatchNorm`, `linear` stands for
an unrelated leaf layer class used in examples. -/
inductive PyClass where
  | module
  | batchNormBase
  | batchNorm1d
  | batchNorm2d
  | batchNorm3d
  | instanceNorm1d
  | instanceNorm2d
  | instanceNorm3d
  | groupNorm
  | identity
  | linear
deriving DecidableEq, Repr

/-- The subclass relation of the classes above, as in PyTorch: everything
is a subclass of `nn.Module`; `BatchNorm1d/2d/3d` are proper subclasses of
`_BatchNorm`; `_InstanceNorm` and `GroupNorm` are NOT subclasses of
`_BatchNorm` (they extend `_NormBase` resp. `Module` directly). The
relation is reflexive. -/
def isSubclass (c d : PyClass) : Bool :=
  match d with
  | .module => true
  | _ => c == d || (d == .batchNormBase &&
      (c == .batchNorm1d || c == .batchNorm2d || c == .batchNorm3d))

/-- A module object: class tag, the attributes the source reads or sets,
and the `_modules` ordered name-to-child map. -/
inductive Module where
  | mk (cls : PyClass) (num_features num_groups : Nat) (affine : Bool)
      (children : List (String × Module))

def Module.cls : Module → PyClass
  | .mk c _ _ _ _ => c

def Module.num_features : Module → Nat
  | .mk _ nf _ _ _ => nf

def Module.num_groups : Module → Nat
  | .mk _ _ ng _ _ => ng

def Module.affine : Module → Bool
  | .mk _ _ _ af _ => af

def Module.children : Module → List (String × Module)
  | .mk _ _ _ _ cs => cs

/-- Python `isinstance(m, t)`: the runtime class of `m` is `t` or a
subclass of `t`. -/
def isinstance (m : Module) (t : PyClass) : Bool :=
  isSubclass m.cls t

/-- `parent._modules[k]` as a read: `none` is a `KeyError`. Python dict
lookup; keys are unique in a dict, `find?` takes the first match. -/
def lookupC (cs : List (String × Module)) (k : String) : Option Module :=
  (cs.find? (fun p => p.1 == k)).map (·.2)

/-- `parent._modules[k] = v` on an existing key: replace the value,
keeping the entry's position (Python dicts keep insertion order on
value update). -/
def updateC (cs : List (String × Module)) (k : String) (v : Module) :
    List (String × Module) :=
  cs.map (fun p => if p.1 == k then (p.1, v) else p)

/-- Python `child_name.split(".")` on the character sequence: splits at
every `'.'`, keeping empty pieces, and `"".split(".") = [""]`. -/
def splitDotAux : List Char → List Char → List String
  | [], acc => [String.mk acc.reverse]
  | c :: cs, acc =>
    if c = '.' then String.mk acc.reverse :: splitDotAux cs []
    else splitDotAux cs (c :: acc)

/-- `child_name.split(".")`. -/
def pySplit (s : String) : List String :=
  splitDotAux s.data []

/-- `prefix + ('.' if prefix else '') + name` from `named_modules`. -/
def dotJoin (pfx n : String) : String :=
  if pfx = "" then n else pfx ++ "." ++ n

/-- `root.named_modules()` with a starting name: yields the node itself
under `pfx`, then all descendants with dotted names, in preorder. -/
def namedModules (pfx : String) (m : Module) : List (String × Module) :=
  match m with
  | .mk _ _ _ _ cs =>
    (pfx, m) ::
      cs.attach.flatMap (fun p => namedModules (dotJoin pfx p.1.1) p.1.2)
termination_by sizeOf m
decreasing_by
  simp_wf
  obtain ⟨⟨n, c2⟩, hp⟩ := p
  have h1 := List.sizeOf_lt_of_mem hp
  simp at h1 ⊢
  omega

/-- The path walk and final assignment of `_replace_child`, rendered
functionally: walk all segments but the last down `_modules`, read the
entry at the last segment, convert it, and write the result back at that
key. `none` is a raised `KeyError` (missing entry) or an exception from
the converter. The `[]` case is unreachable from `pySplit` output. -/
def setAt (conv : Module → Option Module) : Module → List String → Option Module
  | _, [] => none
  | .mk c nf ng af cs, [k] =>
    match lookupC cs k with
    | none => none
    | some old =>
      match conv old with
      | none => none
      | some new => some (.mk c nf ng af (updateC cs k new))
  | .mk c nf ng af cs, k :: k2 :: ks =>
    match lookupC cs k with
    | none => none
    | some child =>
      match setAt conv child (k2 :: ks) with
      | none => none
      | some child2 => some (.mk c nf ng af (updateC cs k child2))

/-- `_replace_child(root, child_name, converter)`: split the dotted name
and replace the addressed child in place. Returns the updated root. -/
def _replace_child (root : Module) (child_name : String)
    (conv : Module → Option Module) : Option Module :=
  setAt conv root (pySplit child_name)

/-- `replace_all_modules(root, target_class, converter)`. Base case: a
root that is an instance of `target_class` is converted directly. Else
every `named_modules()` pair whose node is an instance of `target_class`
gets `_replace_child` applied to its name, in traversal order. -/
def replace_all_modules (root : Module) (target_class : PyClass)
    (conv : Module → Option Module) : Option Module :=
  if isinstance root target_class then conv root
  else
    ((namedModules "" root).filter (fun p => isinstance p.2 target_class)).foldlM
      (fun r p => _replace_child r p.1 conv) root

/-- `nn.Identity()`: a fresh childless identity module. -/
def identityNode : Module := .mk .identity 0 0 false []

/-- The `matchDim` closure of `batchnorm_to_instancenorm`: dispatch on the
runtime class via `isinstance`, returning the corresponding InstanceNorm
constructor, or `None` (here `none`) when no branch matches. PyTorch
`InstanceNormXd(num_features)` defaults to `affine=False` and has no
children. -/
def matchDim (m : Module) : Option (Nat → Module) :=
  if isinstance m .batchNorm1d then some (fun nf => .mk .instanceNorm1d nf 0 false [])
  else if isinstance m .batchNorm2d then some (fun nf => .mk .instanceNorm2d nf 0 false [])
  else if isinstance m .batchNorm3d then some (fun nf => .mk .instanceNorm3d nf 0 false [])
  else none

/-- `batchnorm_to_instancenorm(module)`: `matchDim()(module.num_features)`.
When `matchDim` yields `None`, calling it raises `TypeError`: `none`. -/
def batchnorm_to_instancenorm (m : Module) : Option Module :=
  (matchDim m).map (fun ctor => ctor m.num_features)

/-- `batchnorm_to_groupnorm(module)`:
`nn.GroupNorm(min(32, module.num_features), module.num_features, affine=False)`.
`GroupNorm`'s channel count is stored in the `num_features` field. -/
def batchnorm_to_groupnorm (m : Module) : Module :=
  .mk .groupNorm m.num_features (min 32 m.num_features) false []

/-- `nullify_batchnorm_modules(root, target_class)`: delegates to
`replace_all_modules` with `_BatchNorm` and a constant `nn.Identity()`
converter; `target_class` is accepted but never used. -/
def nullify_batchnorm_modules (root : Module) (target_class : PyClass) :
    Option Module :=
  replace_all_modules root .batchNormBase (fun _ => some identityNode)

/-- `replace_batchnorm(model)`. -/
def replace_batchnorm (model : Module) : Option Module :=
  replace_all_modules model .batchNormBase
    (fun m => some (batchnorm_to_groupnorm m))

/-- Name well-formedness as enforced by PyTorch's `add_module`/`setattr`:
a child name is non-empty and contains no dot (so dotted paths decode
uniquely). -/
def wfName (n : String) : Bool :=
  n ≠ "" && n.data.all (fun c => c ≠ '.')

/-- Sibling keys are pairwise distinct (they come from a Python dict). -/
def keysNodupB : List String → Bool
  | [] => true
  | k :: ks => !ks.contains k && keysNodupB ks

/-- Tree well-formedness: at every node, the child names are distinct,
non-empty and dot-free. Every module graph PyTorch's own API can build
satisfies this. -/
def wfM : Module → Bool
  | .mk _ _ _ _ cs =>
    keysNodupB (cs.map Prod.fst) &&
      cs.attach.all (fun p => wfName p.1.1 && wfM p.1.2)
termination_by m => sizeOf m
decreasing_by
  simp_wf
  obtain ⟨⟨n, c2⟩, hp⟩ := p
  have h1 := List.sizeOf_lt_of_mem hp
  simp at h1 ⊢
  omega

/-- Resolve a path (a list of child names) from a node: `[]` is the node
itself, otherwise follow `_modules` entries segment by segment. -/
def getPath : Module → List String → Option Module
  | m, [] => some m
  | m, k :: ks =>
    match lookupC m.children k with
    | some c => getPath c ks
    | none => none

/-- `isPre p q`: `p` is a (not necessarily proper) leading segment of the
path `q`. -/
def isPre : List String → List String → Bool
  | [], _ => true
  | _ :: _, [] => false
  | a :: p, b :: q => a == b && isPre p q

/-- A `BatchNorm2d(nf)` leaf (PyTorch default `affine=True`). -/
def bn2Leaf (nf : Nat) : Module := .mk .batchNorm2d nf 0 true []

/-- A `BatchNorm1d(nf)` leaf. -/
def bn1Leaf (nf : Nat) : Module := .mk .batchNorm1d nf 0 true []

/-- An unrelated leaf layer. -/
def linLeaf : Module := .mk .linear 0 0 false []

/-- A two-child container: a batch-norm child `"a"` and a plain child
`"b"`. -/
def exTreeBN : Module := .mk .module 0 0 false [("a", bn2Leaf 10), ("b", linLeaf)]

/-- A container with no batch-norm anywhere. -/
def exTreePlain : Module :=
  .mk .module 0 0 false [("a", linLeaf), ("b", .mk .module 0 0 false [("c", linLeaf)])]

/-- A batch-norm root that itself owns a batch-norm child. -/
def bnNested : Module := .mk .batchNorm2d 5 0 true [("a", bn1Leaf 3)]

/-- A node whose runtime class is the abstract `_BatchNorm` base itself:
it has no spatial rank. -/
def bnBaseLeaf : Module := .mk .batchNormBase 5 0 true []

/-! ### Basic equations and induction -/

/-- `namedModules` without the `attach` used for termination. -/
theorem namedModules_mk (pfx : String) (c : PyClass) (nf ng : Nat) (af : Bool)
    (cs : List (String × Module)) :
    namedModules pfx (.mk c nf ng af cs) =
      (pfx, Module.mk c nf ng af cs) ::
        cs.flatMap (fun p => namedModules (dotJoin pfx p.1) p.2) := by
  rw [namedModules]
  congr 1
  conv_rhs => rw [← List.attach_map_subtype_val cs, List.flatMap_map]

/-- `wfM` without the `attach` used for termination. -/
theorem wfM_mk (c : PyClass) (nf ng : Nat) (af : Bool)
    (cs : List (String × Module)) :
    wfM (.mk c nf ng af cs) =
      (keysNodupB (cs.map Prod.fst) && cs.all (fun p => wfName p.1 && wfM p.2)) := by
  rw [wfM]
  congr 1
  rw [Bool.eq_iff_iff]
  simp

/-- Structural induction over module trees. -/
theorem Module.ind (P : Module → Prop)
    (h : ∀ c nf ng af cs, (∀ p ∈ cs, P p.2) → P (.mk c nf ng af cs)) :
    ∀ m, P m
  | .mk c nf ng af cs =>
    h c nf ng af cs (fun p hp => Module.ind P h p.2)
termination_by m => sizeOf m
decreasing_by
  simp_wf
  obtain ⟨n, c2⟩ := p
  have h1 := List.sizeOf_lt_of_mem hp
  simp at h1 ⊢
  omega

theorem wfM_children {c : PyClass} {nf ng : Nat} {af : Bool}
    {cs : List (String × Module)} (h : wfM (.mk c nf ng af cs) = true) :
    keysNodupB (cs.map Prod.fst) = true ∧
      ∀ p ∈ cs, wfName p.1 = true ∧ wfM p.2 = true := by
  rw [wfM_mk] at h
  simp only [Bool.and_eq_true, List.all_eq_true] at h
  exact ⟨h.1, fun p hp => by
    have := h.2 p hp
    simpa [Bool.and_eq_true] using this⟩

/-! ### Dotted-name splitting -/

theorem splitDotAux_no_dot (m : List Char) (acc : List Char)
    (h : '.' ∉ m) : splitDotAux m acc = [String.mk (acc.reverse ++ m)] := by
  induction m generalizing acc with
  | nil => simp [splitDotAux]
  | cons c cs ih =>
    have hc : c ≠ '.' := fun hc => h (hc ▸ List.mem_cons_self c cs)
    have hcs : '.' ∉ cs := fun hm => h (List.mem_cons_of_mem c hm)
    simp [splitDotAux, hc, ih _ hcs]

theorem splitDotAux_append_dot (l m : List Char) (acc : List Char) :
    splitDotAux (l ++ '.' :: m) acc = splitDotAux l acc ++ splitDotAux m [] := by
  induction l generalizing acc with
  | nil => simp [splitDotAux]
  | cons c cs ih =>
    by_cases hc : c = '.'
    · subst hc; simp [splitDotAux, ih]
    · simp [splitDotAux, hc, ih]

theorem splitDotAux_ne_nil (m : List Char) (acc : List Char) :
    splitDotAux m acc ≠ [] := by
  induction m generalizing acc with
  | nil => simp [splitDotAux]
  | cons c cs ih =>
    by_cases hc : c = '.' <;> simp [splitDotAux, hc, ih]

theorem pySplit_ne_nil (s : String) : pySplit s ≠ [] :=
  splitDotAux_ne_nil s.data []

theorem wfName_no_dot {n : String} (h : wfName n = true) : '.' ∉ n.data := by
  intro hm
  rw [wfName, Bool.and_eq_true, List.all_eq_true] at h
  simpa using h.2 '.' hm

theorem pySplit_of_wfName {n : String} (h : wfName n = true) :
    pySplit n = [n] := by
  rw [pySplit, splitDotAux_no_dot n.data [] (wfName_no_dot h)]
  simp

theorem pySplit_dotJoin {pfx n : String} (hp : pfx ≠ "")
    (h : wfName n = true) :
    pySplit (dotJoin pfx n) = pySplit pfx ++ [n] := by
  rw [dotJoin, if_neg hp, pySplit]
  have hdata : (pfx ++ "." ++ n).data = pfx.data ++ '.' :: n.data := by
    simp
  rw [hdata, splitDotAux_append_dot,
    splitDotAux_no_dot n.data [] (wfName_no_dot h)]
  simp [pySplit]

/-! ### Association-list (`_modules`) lemmas -/

theorem keysNodupB_cons {k : String} {ks : List String}
    (h : keysNodupB (k :: ks) = true) :
    k ∉ ks ∧ keysNodupB ks = true := by
  rw [keysNodupB, Bool.and_eq_true] at h
  refine ⟨fun hm => ?_, h.2⟩
  have h1 := h.1
  simp only [Bool.not_eq_true'] at h1
  rw [List.contains_eq_any_beq] at h1
  have : ks.any (fun x => k == x) = true := List.any_eq_true.2 ⟨k, hm, by simp⟩
  rw [h1] at this
  cases this

theorem lookupC_nil (k : String) : lookupC [] k = none := rfl

theorem lookupC_cons (p : String × Module) (cs : List (String × Module))
    (k : String) :
    lookupC (p :: cs) k = if p.1 = k then some p.2 else lookupC cs k := by
  by_cases h : p.1 = k
  · rw [lookupC, List.find?_cons_of_pos _ (by simp [h])]
    simp [h]
  · rw [lookupC, List.find?_cons_of_neg _ (by simp [h]), if_neg h, lookupC]

theorem updateC_nil (k : String) (v : Module) : updateC [] k v = [] := rfl

theorem updateC_cons (p : String × Module) (cs : List (String × Module))
    (k : String) (v : Module) :
    updateC (p :: cs) k v =
      (if p.1 = k then (p.1, v) else p) :: updateC cs k v := by
  rw [updateC, updateC, List.map_cons]
  by_cases h : p.1 = k <;> simp [h]

theorem mem_of_lookupC {cs : List (String × Module)} {k : String} {c : Module}
    (h : lookupC cs k = some c) : (k, c) ∈ cs := by
  induction cs with
  | nil => simp [lookupC_nil] at h
  | cons p cs ih =>
    rw [lookupC_cons] at h
    by_cases hk : p.1 = k
    · rw [if_pos hk] at h
      have hp : p = (k, c) := by
        obtain ⟨p1, p2⟩ := p
        simp at hk h
        simp [hk, h]
      subst hp
      exact List.mem_cons_self _ _
    · rw [if_neg hk] at h
      exact List.mem_cons_of_mem _ (ih h)

theorem lookupC_of_mem_nodup {cs : List (String × Module)} {k : String}
    {c : Module} (hnd : keysNodupB (cs.map Prod.fst) = true)
    (hmem : (k, c) ∈ cs) : lookupC cs k = some c := by
  induction cs with
  | nil => cases hmem
  | cons p cs ih =>
    obtain ⟨hcont, hnd'⟩ := keysNodupB_cons (by simpa using hnd)
    rcases List.mem_cons.1 hmem with h | h
    · rw [← h, lookupC_cons, if_pos rfl]
    · have hk : p.1 ≠ k := by
        intro hk
        exact hcont (hk ▸ List.mem_map.2 ⟨(k, c), h, rfl⟩)
      rw [lookupC_cons, if_neg hk]
      exact ih hnd' h

theorem lookupC_updateC_ne {cs : List (String × Module)} {k j : String}
    (v : Module) (h : j ≠ k) :
    lookupC (updateC cs k v) j = lookupC cs j := by
  induction cs with
  | nil => rfl
  | cons p cs ih =>
    rw [updateC_cons]
    by_cases hk : p.1 = k
    · rw [if_pos hk, lookupC_cons, lookupC_cons]
      have h1 : p.1 ≠ j := by
        intro hj
        exact h (by rw [← hj, hk])
      rw [if_neg h1, if_neg h1, ih]
    · rw [if_neg hk, lookupC_cons, lookupC_cons, ih]

theorem lookupC_updateC_self {cs : List (String × Module)} {k : String}
    {c : Module} (v : Module) (h : lookupC cs k = some c) :
    lookupC (updateC cs k v) k = some v := by
  induction cs with
  | nil => simp [lookupC_nil] at h
  | cons p cs ih =>
    rw [lookupC_cons] at h
    rw [updateC_cons]
    by_cases hk : p.1 = k
    · rw [if_pos hk, lookupC_cons]
      simp [hk]
    · rw [if_neg hk] at h
      rw [if_neg hk, lookupC_cons, if_neg hk]
      exact ih h

theorem updateC_map_fst (cs : List (String × Module)) (k : String)
    (v : Module) : (updateC cs k v).map Prod.fst = cs.map Prod.fst := by
  induction cs with
  | nil => rfl
  | cons p cs ih =>
    rw [updateC_cons, List.map_cons, List.map_cons, ih]
    by_cases hk : p.1 = k <;> simp [hk]

/-! ### Path resolution and `setAt` -/

theorem getPath_nil (m : Module) : getPath m [] = some m := rfl

theorem getPath_cons (m : Module) (k : String) (ks : List String) :
    getPath m (k :: ks) =
      match lookupC m.children k with
      | some c => getPath c ks
      | none => none := rfl

theorem getPath_append (m : Module) (p q : List String) :
    getPath m (p ++ q) = (getPath m p).bind (fun x => getPath x q) := by
  induction p generalizing m with
  | nil => simp [getPath_nil]
  | cons k ks ih =>
    rw [List.cons_append, getPath_cons, getPath_cons]
    cases lookupC m.children k with
    | none => rfl
    | some c => exact ih c

theorem isPre_nil_left (q : List String) : isPre [] q = true := rfl

theorem isPre_refl (p : List String) : isPre p p = true := by
  induction p with
  | nil => rfl
  | cons a p ih => simp [isPre, ih]

/-- A successful `setAt` found a node at the path, converted it, and the
new tree holds the converter's output there. -/
theorem setAt_getPath {conv : Module → Option Module} {m m' : Module}
    {p : List String} (h : setAt conv m p = some m') :
    ∃ old new, getPath m p = some old ∧ conv old = some new ∧
      getPath m' p = some new := by
  induction p generalizing m m' with
  | nil => simp [setAt] at h
  | cons k ks ih =>
    obtain ⟨c, nf, ng, af, cs⟩ := m
    cases ks with
    | nil =>
      rw [setAt] at h
      cases hl : lookupC cs k with
      | none => rw [hl] at h; dsimp only at h; cases h
      | some old =>
        rw [hl] at h
        dsimp only at h
        cases hc : conv old with
        | none => rw [hc] at h; dsimp only at h; cases h
        | some new =>
          rw [hc] at h
          dsimp only at h
          cases h
          refine ⟨old, new, ?_, hc, ?_⟩
          · rw [getPath_cons]
            simp [Module.children, hl, getPath_nil]
          · rw [getPath_cons]
            simp [Module.children, lookupC_updateC_self new hl, getPath_nil]
    | cons k2 ks2 =>
      rw [setAt] at h
      cases hl : lookupC cs k with
      | none => rw [hl] at h; dsimp only at h; cases h
      | some child =>
        rw [hl] at h
        dsimp only at h
        cases hs : setAt conv child (k2 :: ks2) with
        | none => rw [hs] at h; dsimp only at h; cases h
        | some child2 =>
          rw [hs] at h
          dsimp only at h
          cases h
          obtain ⟨old, new, h1, h2, h3⟩ := ih hs
          refine ⟨old, new, ?_, h2, ?_⟩
          · rw [getPath_cons]
            simp [Module.children, hl, h1]
          · rw [getPath_cons]
            simp [Module.children, lookupC_updateC_self child2 hl, h3]

/-- Frame property: a successful `setAt` leaves every path that neither
extends nor is extended by the replaced path untouched. -/
theorem setAt_frame {conv : Module → Option Module} {m m' : Module}
    {p : List String} (h : setAt conv m p = some m') :
    ∀ q, isPre p q = false → isPre q p = false →
      getPath m' q = getPath m q := by
  induction p generalizing m m' with
  | nil => simp [setAt] at h
  | cons k ks ih =>
    intro q hpq hqp
    obtain ⟨c, nf, ng, af, cs⟩ := m
    cases q with
    | nil => simp [isPre] at hqp
    | cons j qs =>
      by_cases hjk : j = k
      · subst hjk
        cases ks with
        | nil =>
          exfalso
          cases qs with
          | nil => simp [isPre] at hpq
          | cons q1 qs1 => simp [isPre] at hpq
        | cons k2 ks2 =>
          rw [setAt] at h
          cases hl : lookupC cs j with
          | none => rw [hl] at h; dsimp only at h; cases h
          | some child =>
            rw [hl] at h
            dsimp only at h
            cases hs : setAt conv child (k2 :: ks2) with
            | none => rw [hs] at h; dsimp only at h; cases h
            | some child2 =>
              rw [hs] at h
              dsimp only at h
              cases h
              rw [getPath_cons, getPath_cons]
              simp only [Module.children, hl, lookupC_updateC_self child2 hl]
              have hpq' : isPre (k2 :: ks2) qs = false := by
                simpa [isPre] using hpq
              have hqp' : isPre qs (k2 :: ks2) = false := by
                simpa [isPre] using hqp
              exact ih hs qs hpq' hqp'
      · have hne : getPath m' (j :: qs) = getPath m' (j :: qs) := rfl
        cases ks with
        | nil =>
          rw [setAt] at h
          cases hl : lookupC cs k with
          | none => rw [hl] at h; dsimp only at h; cases h
          | some old =>
            rw [hl] at h
            dsimp only at h
            cases hc : conv old with
            | none => rw [hc] at h; dsimp only at h; cases h
            | some new =>
              rw [hc] at h
              dsimp only at h
              cases h
              rw [getPath_cons, getPath_cons]
              simp only [Module.children]
              rw [lookupC_updateC_ne new hjk]
        | cons k2 ks2 =>
          rw [setAt] at h
          cases hl : lookupC cs k with
          | none => rw [hl] at h; dsimp only at h; cases h
          | some child =>
            rw [hl] at h
            dsimp only at h
            cases hs : setAt conv child (k2 :: ks2) with
            | none => rw [hs] at h; dsimp only at h; cases h
            | some child2 =>
              rw [hs] at h
              dsimp only at h
              cases h
              rw [getPath_cons, getPath_cons]
              simp only [Module.children]
              rw [lookupC_updateC_ne child2 hjk]

/-- A successful `setAt` only rebuilds the spine: every proper leading
segment of the replaced path still resolves, to a node with the same
class tag and attributes as before. -/
theorem setAt_spine {conv : Module → Option Module} {m m' : Module}
    {p : List String} (h : setAt conv m p = some m') :
    ∀ q, isPre q p = true → q ≠ p →
      ∃ x x', getPath m q = some x ∧ getPath m' q = some x' ∧
        x'.cls = x.cls ∧ x'.num_features = x.num_features ∧
        x'.num_groups = x.num_groups ∧ x'.affine = x.affine := by
  induction p generalizing m m' with
  | nil => simp [setAt] at h
  | cons k ks ih =>
    intro q hq hne
    obtain ⟨c, nf, ng, af, cs⟩ := m
    cases q with
    | nil =>
      cases ks with
      | nil =>
        rw [setAt] at h
        cases hl : lookupC cs k with
        | none => rw [hl] at h; dsimp only at h; cases h
        | some old =>
          rw [hl] at h
          dsimp only at h
          cases hc : conv old with
          | none => rw [hc] at h; dsimp only at h; cases h
          | some new =>
            rw [hc] at h
            dsimp only at h
            cases h
            exact ⟨_, _, rfl, rfl, rfl, rfl, rfl, rfl⟩
      | cons k2 ks2 =>
        rw [setAt] at h
        cases hl : lookupC cs k with
        | none => rw [hl] at h; dsimp only at h; cases h
        | some child =>
          rw [hl] at h
          dsimp only at h
          cases hs : setAt conv child (k2 :: ks2) with
          | none => rw [hs] at h; dsimp only at h; cases h
          | some child2 =>
            rw [hs] at h
            dsimp only at h
            cases h
            exact ⟨_, _, rfl, rfl, rfl, rfl, rfl, rfl⟩
    | cons j qs =>
      have hjk : j = k := by
        by_contra hc
        simp [isPre, hc] at hq
      subst hjk
      have hq' : isPre qs ks = true := by simpa [isPre] using hq
      cases ks with
      | nil =>
        cases qs with
        | nil => exact absurd rfl hne
        | cons q1 qs1 => simp [isPre] at hq'
      | cons k2 ks2 =>
        rw [setAt] at h
        cases hl : lookupC cs j with
        | none => rw [hl] at h; dsimp only at h; cases h
        | some child =>
          rw [hl] at h
          dsimp only at h
          cases hs : setAt conv child (k2 :: ks2) with
          | none => rw [hs] at h; dsimp only at h; cases h
          | some child2 =>
            rw [hs] at h
            dsimp only at h
            cases h
            have hne' : qs ≠ k2 :: ks2 := fun hh => hne (by rw [hh])
            obtain ⟨x, x', h1, h2, h3⟩ := ih hs qs hq' hne'
            refine ⟨x, x', ?_, ?_, h3⟩
            · rw [getPath_cons]
              simp [Module.children, hl, h1]
            · rw [getPath_cons]
              simp [Module.children, lookupC_updateC_self child2 hl, h2]

/-- If the path resolves and the converter succeeds on the node there,
`setAt` succeeds. -/
theorem setAt_succeeds {conv : Module → Option Module} {m x y : Module}
    {p : List String} (hg : getPath m p = some x) (hc : conv x = some y)
    (hp : p ≠ []) : ∃ m', setAt conv m p = some m' := by
  induction p generalizing m with
  | nil => exact absurd rfl hp
  | cons k ks ih =>
    obtain ⟨c, nf, ng, af, cs⟩ := m
    rw [getPath_cons] at hg
    cases hl : lookupC (Module.mk c nf ng af cs).children k with
    | none => rw [hl] at hg; dsimp only at hg; cases hg
    | some child =>
      rw [hl] at hg
      dsimp only at hg
      simp only [Module.children] at hl
      cases ks with
      | nil =>
        rw [getPath_nil] at hg
        cases hg
        exact ⟨Module.mk c nf ng af (updateC cs k y), by simp [setAt, hl, hc]⟩
      | cons k2 ks2 =>
        obtain ⟨child2, hs⟩ := ih hg (by simp)
        exact ⟨Module.mk c nf ng af (updateC cs k child2),
          by simp [setAt, hl, hs]⟩

/-- `setAt` preserves tree well-formedness when the converter's outputs
are well-formed. -/
theorem setAt_wf {conv : Module → Option Module} {m m' : Module}
    {p : List String} (hwf : wfM m = true)
    (hconv : ∀ x y, conv x = some y → wfM y = true)
    (h : setAt conv m p = some m') : wfM m' = true := by
  induction p generalizing m m' with
  | nil => simp [setAt] at h
  | cons k ks ih =>
    obtain ⟨c, nf, ng, af, cs⟩ := m
    obtain ⟨hnd, hch⟩ := wfM_children hwf
    cases ks with
    | nil =>
      rw [setAt] at h
      cases hl : lookupC cs k with
      | none => rw [hl] at h; dsimp only at h; cases h
      | some old =>
        rw [hl] at h
        dsimp only at h
        cases hcv : conv old with
        | none => rw [hcv] at h; dsimp only at h; cases h
        | some new =>
          rw [hcv] at h
          dsimp only at h
          cases h
          rw [wfM_mk, Bool.and_eq_true]
          constructor
          · rw [updateC_map_fst]; exact hnd
          · rw [List.all_eq_true]
            intro q hq
            rw [updateC] at hq
            obtain ⟨q0, hq0, hq0e⟩ := List.mem_map.1 hq
            by_cases hk : q0.1 = k
            · have : q = (q0.1, new) := by simp [← hq0e, hk]
              subst this
              have hw := hch q0 hq0
              simp only [Bool.and_eq_true]
              exact ⟨hw.1, hconv _ _ hcv⟩
            · have hqq : q = q0 := by simp [← hq0e, hk]
              have hw := hch q0 hq0
              rw [hqq]
              simp only [Bool.and_eq_true]
              exact ⟨hw.1, hw.2⟩
    | cons k2 ks2 =>
      rw [setAt] at h
      cases hl : lookupC cs k with
      | none => rw [hl] at h; dsimp only at h; cases h
      | some child =>
        rw [hl] at h
        dsimp only at h
        cases hs : setAt conv child (k2 :: ks2) with
        | none => rw [hs] at h; dsimp only at h; cases h
        | some child2 =>
          rw [hs] at h
          dsimp only at h
          cases h
          have hwchild : wfM child = true :=
            (hch _ (mem_of_lookupC hl)).2
          have hwchild2 : wfM child2 = true := ih hwchild hs
          rw [wfM_mk, Bool.and_eq_true]
          constructor
          · rw [updateC_map_fst]; exact hnd
          · rw [List.all_eq_true]
            intro q hq
            rw [updateC] at hq
            obtain ⟨q0, hq0, hq0e⟩ := List.mem_map.1 hq
            by_cases hk : q0.1 = k
            · have : q = (q0.1, child2) := by simp [← hq0e, hk]
              subst this
              have hw := hch q0 hq0
              simp only [Bool.and_eq_true]
              exact ⟨hw.1, hwchild2⟩
            · have hqq : q = q0 := by simp [← hq0e, hk]
              have hw := hch q0 hq0
              rw [hqq]
              simp only [Bool.and_eq_true]
              exact ⟨hw.1, hw.2⟩

/-! ### `named_modules` names versus paths -/

theorem dotJoin_ne_empty {pfx : String} (n : String) (h : pfx ≠ "") :
    dotJoin pfx n ≠ "" := by
  rw [dotJoin, if_neg h]
  intro hc
  have : (pfx ++ "." ++ n).data = [] := by rw [hc]
  simp at this

theorem dotJoin_empty (n : String) : dotJoin "" n = n := rfl

/-- Soundness at a non-empty name context: every pair enumerated by
`named_modules` under `pfx` resolves, after splitting, to its node. -/
theorem namedModules_sound_aux (m : Module) :
    ∀ pfx, pfx ≠ "" → wfM m = true → ∀ nm x,
      (nm, x) ∈ namedModules pfx m →
      ∃ p, pySplit nm = pySplit pfx ++ p ∧ getPath m p = some x := by
  induction m using Module.ind with
  | _ c nf ng af cs ih =>
    intro pfx hpfx hwf nm x hmem
    rw [namedModules_mk] at hmem
    rcases List.mem_cons.1 hmem with h | h
    · obtain ⟨h1, h2⟩ := Prod.mk.injEq .. ▸ h
      refine ⟨[], ?_, ?_⟩
      · rw [h1]; simp
      · rw [getPath_nil, h2]
    · obtain ⟨pr, hpr, hmem'⟩ := List.mem_flatMap.1 h
      obtain ⟨hnd, hch⟩ := wfM_children hwf
      obtain ⟨hn, hw⟩ := hch pr hpr
      obtain ⟨p', hsp, hgp⟩ :=
        ih pr hpr (dotJoin pfx pr.1) (dotJoin_ne_empty pr.1 hpfx) hw nm x hmem'
      refine ⟨pr.1 :: p', ?_, ?_⟩
      · rw [hsp, pySplit_dotJoin hpfx hn, List.append_assoc,
          List.singleton_append]
      · rw [getPath_cons]
        have hl : lookupC cs pr.1 = some pr.2 :=
          lookupC_of_mem_nodup hnd (by simpa using hpr)
        simp [Module.children, hl, hgp]

/-- Soundness at the root: a `named_modules` pair is the root itself
(name `""`) or resolves along its split name. -/
theorem namedModules_sound {T : Module} (hwf : wfM T = true) {nm : String}
    {x : Module} (hmem : (nm, x) ∈ namedModules "" T) :
    (nm = "" ∧ x = T) ∨ getPath T (pySplit nm) = some x := by
  obtain ⟨c, nf, ng, af, cs⟩ := T
  rw [namedModules_mk] at hmem
  rcases List.mem_cons.1 hmem with h | h
  · obtain ⟨h1, h2⟩ := Prod.mk.injEq .. ▸ h
    exact Or.inl ⟨h1, h2⟩
  · right
    obtain ⟨pr, hpr, hmem'⟩ := List.mem_flatMap.1 h
    obtain ⟨hnd, hch⟩ := wfM_children hwf
    obtain ⟨hn, hw⟩ := hch pr hpr
    have hne : pr.1 ≠ "" := by
      rw [wfName, Bool.and_eq_true] at hn
      simpa using hn.1
    rw [dotJoin_empty] at hmem'
    obtain ⟨p', hsp, hgp⟩ :=
      namedModules_sound_aux pr.2 pr.1 hne hw nm x hmem'
    rw [hsp, pySplit_of_wfName hn, List.singleton_append, getPath_cons]
    have hl : lookupC cs pr.1 = some pr.2 :=
      lookupC_of_mem_nodup hnd (by simpa using hpr)
    simp [Module.children, hl, hgp]

/-- Completeness at a non-empty name context: every resolvable path has a
corresponding `named_modules` entry. -/
theorem namedModules_complete_aux (p : List String) :
    ∀ (m : Module) pfx, pfx ≠ "" → wfM m = true → ∀ x,
      getPath m p = some x →
      ∃ nm, (nm, x) ∈ namedModules pfx m ∧ pySplit nm = pySplit pfx ++ p := by
  induction p with
  | nil =>
    intro m pfx hpfx hwf x hg
    rw [getPath_nil] at hg
    cases hg
    obtain ⟨c, nf, ng, af, cs⟩ := m
    refine ⟨pfx, ?_, by simp⟩
    rw [namedModules_mk]
    exact List.mem_cons_self _ _
  | cons k ks ih =>
    intro m pfx hpfx hwf x hg
    obtain ⟨c, nf, ng, af, cs⟩ := m
    rw [getPath_cons] at hg
    cases hl : lookupC (Module.mk c nf ng af cs).children k with
    | none => rw [hl] at hg; dsimp only at hg; cases hg
    | some child =>
      rw [hl] at hg
      dsimp only at hg
      simp only [Module.children] at hl
      obtain ⟨hnd, hch⟩ := wfM_children hwf
      have hmemc : (k, child) ∈ cs := mem_of_lookupC hl
      obtain ⟨hn, hw⟩ := hch (k, child) hmemc
      obtain ⟨nm, hmem', hsp⟩ :=
        ih child (dotJoin pfx k) (dotJoin_ne_empty k hpfx) hw x hg
      refine ⟨nm, ?_, ?_⟩
      · rw [namedModules_mk]
        refine List.mem_cons_of_mem _ (List.mem_flatMap.2 ⟨(k, child), hmemc, ?_⟩)
        exact hmem'
      · rw [hsp, pySplit_dotJoin hpfx hn, List.append_assoc]
        rfl

/-- Completeness at the root: every non-root resolvable path has a
`named_modules` entry whose name splits back to it. -/
theorem namedModules_complete {T : Module} (hwf : wfM T = true)
    {p : List String} {x : Module} (hg : getPath T p = some x)
    (hp : p ≠ []) :
    ∃ nm, (nm, x) ∈ namedModules "" T ∧ pySplit nm = p := by
  cases p with
  | nil => exact absurd rfl hp
  | cons k ks =>
    obtain ⟨c, nf, ng, af, cs⟩ := T
    rw [getPath_cons] at hg
    cases hl : lookupC (Module.mk c nf ng af cs).children k with
    | none => rw [hl] at hg; dsimp only at hg; cases hg
    | some child =>
      rw [hl] at hg
      dsimp only at hg
      simp only [Module.children] at hl
      obtain ⟨hnd, hch⟩ := wfM_children hwf
      have hmemc : (k, child) ∈ cs := mem_of_lookupC hl
      obtain ⟨hn, hw⟩ := hch (k, child) hmemc
      have hne : k ≠ "" := by
        rw [wfName, Bool.and_eq_true] at hn
        simpa using hn.1
      obtain ⟨nm, hmem', hsp⟩ :=
        namedModules_complete_aux ks child k hne hw x hg
      refine ⟨nm, ?_, ?_⟩
      · rw [namedModules_mk]
        refine List.mem_cons_of_mem _ (List.mem_flatMap.2 ⟨(k, child), hmemc, ?_⟩)
        rw [dotJoin_empty]
        exact hmem'
      · rw [hsp, pySplit_of_wfName hn]
        rfl

/-! ### The nullify fold -/

theorem isPre_iff : ∀ (p q : List String), isPre p q = true ↔ ∃ r, p ++ r = q
  | [], q => by simp [isPre]
  | a :: p, [] => by
    rw [isPre]
    constructor
    · intro h; cases h
    · rintro ⟨r, h⟩; cases h
  | a :: p, b :: q => by
    rw [isPre, Bool.and_eq_true, beq_iff_eq, isPre_iff p q]
    constructor
    · rintro ⟨rfl, r, rfl⟩
      exact ⟨r, rfl⟩
    · rintro ⟨r, h⟩
      injection h with h1 h2
      exact ⟨h1, r, h2⟩

theorem wfM_identityNode : wfM identityNode = true := by
  rw [identityNode, wfM_mk]
  rfl

theorem isinstance_identityNode_bn :
    isinstance identityNode .batchNormBase = false := rfl

theorem getPath_identityNode_cons (k : String) (ks : List String) :
    getPath identityNode (k :: ks) = none := rfl

theorem namedModules_identityNode :
    namedModules "" identityNode = [("", identityNode)] := by
  rw [identityNode, namedModules_mk]
  rfl

/-- Running the matched-name replacements of `nullify` to completion
removes every batch-normalization instance, provided every such instance
was listed. -/
theorem nullify_fold :
    ∀ (R : List (String × Module)) (r r' : Module),
      wfM r = true →
      (∀ q x, getPath r q = some x → isinstance x .batchNormBase = true →
        ∃ pr ∈ R, pySplit pr.1 = q) →
      R.foldlM
        (fun a p => _replace_child a p.1 (fun _ => some identityNode)) r =
        some r' →
      wfM r' = true ∧
        ∀ q x, getPath r' q = some x →
          isinstance x .batchNormBase = false := by
  intro R
  induction R with
  | nil =>
    intro r r' hwf hinv hfold
    rw [List.foldlM_nil] at hfold
    cases hfold
    refine ⟨hwf, fun q x hg => ?_⟩
    by_contra hc
    rw [Bool.not_eq_false] at hc
    obtain ⟨pr, hpr, _⟩ := hinv q x hg hc
    cases hpr
  | cons pr R ih =>
    intro r r' hwf hinv hfold
    rw [List.foldlM_cons] at hfold
    cases hstep : _replace_child r pr.1 (fun _ => some identityNode) with
    | none =>
      rw [hstep] at hfold
      simp at hfold
    | some r1 =>
      rw [hstep] at hfold
      simp only [Option.bind_eq_bind, Option.some_bind] at hfold
      rw [_replace_child] at hstep
      have hwf1 : wfM r1 = true :=
        setAt_wf hwf
          (fun x y hxy => by
            cases hxy
            exact wfM_identityNode) hstep
      have hinv1 : ∀ q x, getPath r1 q = some x →
          isinstance x .batchNormBase = true → ∃ pr2 ∈ R, pySplit pr2.1 = q := by
        intro q x hg hbn
        by_cases hA : isPre (pySplit pr.1) q = true
        · exfalso
          obtain ⟨rest, hrest⟩ := (isPre_iff _ _).1 hA
          obtain ⟨old, new, hold, hnew, hget⟩ := setAt_getPath hstep
          have hnewid : new = identityNode := by
            cases hnew
            rfl
          subst hnewid
          rw [← hrest, getPath_append, hget] at hg
          cases rest with
          | nil =>
            simp only [Option.some_bind, getPath_nil] at hg
            cases hg
            rw [isinstance_identityNode_bn] at hbn
            cases hbn
          | cons k ks =>
            simp only [Option.some_bind, getPath_identityNode_cons] at hg
            cases hg
        · by_cases hB : isPre q (pySplit pr.1) = true
          · have hqne : q ≠ pySplit pr.1 := by
              intro he
              rw [he] at hA
              exact hA (isPre_refl _)
            obtain ⟨x0, x', hg0, hg1, hcls, _⟩ := setAt_spine hstep q hB hqne
            have hxx : x' = x := by
              rw [hg] at hg1
              cases hg1
              rfl
            subst hxx
            have hbn0 : isinstance x0 .batchNormBase = true := by
              rw [isinstance, ← hcls, ← isinstance]
              exact hbn
            obtain ⟨pr2, hpr2, hsp2⟩ := hinv q x0 hg0 hbn0
            rcases List.mem_cons.1 hpr2 with he | he
            · exact absurd (he ▸ hsp2) hqne.symm
            · exact ⟨pr2, he, hsp2⟩
          · have hfr : getPath r1 q = getPath r q :=
              setAt_frame hstep q
                (by revert hA; cases isPre (pySplit pr.1) q <;> simp)
                (by revert hB; cases isPre q (pySplit pr.1) <;> simp)
            rw [hfr] at hg
            obtain ⟨pr2, hpr2, hsp2⟩ := hinv q x hg hbn
            rcases List.mem_cons.1 hpr2 with he | he
            · exfalso
              rw [he] at hsp2
              rw [hsp2] at hA
              exact hA (isPre_refl _)
            · exact ⟨pr2, he, hsp2⟩
      exact ih r1 r' hwf1 hinv1 hfold

/-! ### Claims -/

/-- C1, counterexample: the claim says a node is selected only when its
runtime type equals `target_class` exactly. But a root whose runtime class
`BatchNorm2d` is a proper subclass of the target `_BatchNorm` IS selected
(it is converted and returned), because the code matches with
`isinstance`. -/
theorem c1_counterexample :
    replace_all_modules (bn2Leaf 10) .batchNormBase
      (fun _ => some identityNode) = some identityNode ∧
    (bn2Leaf 10).cls ≠ PyClass.batchNormBase := by
  constructor
  · rw [replace_all_modules, if_pos (by decide)]
  · decide

/-- C1, amended: in every tree, a node is selected for replacement iff
its runtime class equals `target_class` OR is a subclass of it
(`isinstance` semantics). The selection points of the code are fully
characterised: a root passing the `isinstance` test is converted
directly; otherwise the call performs exactly the replacements of the
`named_modules` pairs passing the per-node `isinstance` filter, and a
pair enters that list iff it is an enumerated node whose class equals
the target or is a subclass of it. `isSubclass` is reflexive, so an
exact runtime-type match is always selected; the counterexample shows a
proper subclass is selected as well. -/
theorem c1_amended (root : Module) (t : PyClass)
    (conv : Module → Option Module) :
    (isinstance root t = true → replace_all_modules root t conv = conv root) ∧
    (isinstance root t = false →
      replace_all_modules root t conv =
        ((namedModules "" root).filter (fun p => isinstance p.2 t)).foldlM
          (fun r p => _replace_child r p.1 conv) root) ∧
    (∀ nm x, (nm, x) ∈ (namedModules "" root).filter
        (fun p => isinstance p.2 t) ↔
      ((nm, x) ∈ namedModules "" root ∧
        (x.cls = t ∨ isSubclass x.cls t = true))) ∧
    (∀ c : PyClass, isSubclass c c = true) := by
  refine ⟨fun h => ?_, fun h => ?_, fun nm x => ?_, fun c => ?_⟩
  · rw [replace_all_modules, if_pos h]
  · rw [replace_all_modules, if_neg (by rw [h]; simp)]
  · rw [List.mem_filter]
    constructor
    · rintro ⟨hmem, hsel⟩
      refine ⟨hmem, Or.inr ?_⟩
      simpa [isinstance] using hsel
    · rintro ⟨hmem, hsel⟩
      refine ⟨hmem, ?_⟩
      rcases hsel with hsel | hsel
      · simp only [isinstance, hsel]
        cases t <;> rfl
      · simpa [isinstance] using hsel
  · cases c <;> rfl

/-- C1, amended, witness: in the two-child tree, the descendant at name
`"a"`, whose class `BatchNorm2d` is a proper subclass of the target
`_BatchNorm`, is selected by the filter; and a proper-subclass root is
converted directly. -/
theorem c1_amended_witness :
    ("a", bn2Leaf 10) ∈ (namedModules "" exTreeBN).filter
      (fun p => isinstance p.2 .batchNormBase) ∧
    replace_all_modules (bn2Leaf 10) .batchNormBase
      (fun _ => some identityNode) = some identityNode := by
  constructor
  · exact ((c1_amended exTreeBN .batchNormBase
      (fun _ => some identityNode)).2.2.1 "a" (bn2Leaf 10)).2
      ⟨by simp [exTreeBN, namedModules_mk, dotJoin_empty, bn2Leaf, linLeaf],
        by decide⟩
  · exact (c1_amended (bn2Leaf 10) .batchNormBase
      (fun _ => some identityNode)).1 (by decide)

/-- C2: `nullify_batchnorm_modules` delegates to `replace_all_modules`
with the `_BatchNorm` base class and a constant `nn.Identity()` converter,
and its `target_class` argument has no effect on the result. -/
theorem c2_nullify_refinement (root : Module) (t t' : PyClass) :
    nullify_batchnorm_modules root t =
      replace_all_modules root .batchNormBase (fun _ => some identityNode) ∧
    nullify_batchnorm_modules root t = nullify_batchnorm_modules root t' :=
  ⟨rfl, rfl⟩

/-- C3: `batchnorm_to_groupnorm` always yields a group-norm node with
group count `min 32 (channel count)`, the same channel count, affine
disabled; in particular 64 channels give 32 groups and 8 channels give 8
groups. -/
theorem c3_groupnorm (m : Module) :
    (batchnorm_to_groupnorm m).cls = PyClass.groupNorm ∧
    (batchnorm_to_groupnorm m).num_groups = min 32 m.num_features ∧
    (batchnorm_to_groupnorm m).num_features = m.num_features ∧
    (batchnorm_to_groupnorm m).affine = false ∧
    (batchnorm_to_groupnorm (bn2Leaf 64)).num_groups = 32 ∧
    (batchnorm_to_groupnorm (bn2Leaf 8)).num_groups = 8 :=
  ⟨rfl, rfl, rfl, rfl, by decide, by decide⟩

/-- C4: when the root itself is an instance of the target class,
`replace_all_modules` returns the converted root at once: the result is
`conv root` for every converter, with no descent and no path resolution,
even when descendants also match. -/
theorem c4_root_case (T : Module) (X : PyClass)
    (conv : Module → Option Module) (h : isinstance T X = true) :
    replace_all_modules T X conv = conv T := by
  rw [replace_all_modules, if_pos h]

/-- C4, witness: a batch-norm root that itself owns a matching batch-norm
child is converted directly. -/
theorem c4_root_case_witness :
    replace_all_modules bnNested .batchNormBase
      (fun m => some (batchnorm_to_groupnorm m)) =
      some (batchnorm_to_groupnorm bnNested) :=
  c4_root_case bnNested .batchNormBase _ (by decide)

/-- C6: when no node of the tree (root included) is an instance of the
target class, `replace_all_modules` returns the tree unchanged, for every
converter. -/
theorem c6_no_match (T : Module) (X : PyClass)
    (conv : Module → Option Module)
    (h : ∀ pr ∈ namedModules "" T, isinstance pr.2 X = false) :
    replace_all_modules T X conv = some T := by
  obtain ⟨c, nf, ng, af, cs⟩ := T
  have hroot : isinstance (Module.mk c nf ng af cs) X = false :=
    h ("", Module.mk c nf ng af cs)
      (by rw [namedModules_mk]; exact List.mem_cons_self _ _)
  rw [replace_all_modules, if_neg (by rw [hroot]; simp)]
  have hfil : (namedModules "" (Module.mk c nf ng af cs)).filter
      (fun p => isinstance p.2 X) = [] := by
    rw [List.filter_eq_nil_iff]
    intro a ha
    rw [h a ha]
    simp
  rw [hfil, List.foldlM_nil]
  rfl

/-- C6, witness: a batch-norm-free tree is returned unchanged even under
a converter that always fails. -/
theorem c6_no_match_witness :
    replace_all_modules exTreePlain .batchNormBase (fun _ => none) =
      some exTreePlain := by
  apply c6_no_match
  intro pr hpr
  simp [exTreePlain, namedModules_mk, dotJoin_empty, linLeaf] at hpr
  rcases hpr with rfl | rfl | rfl | rfl <;> decide

/-- C7: on a batch-norm node of spatial rank 1, 2 or 3,
`batchnorm_to_instancenorm` yields the instance-norm node of the same
rank carrying the same channel count. -/
theorem c7_instancenorm (m : Module) :
    (m.cls = PyClass.batchNorm1d → batchnorm_to_instancenorm m =
      some (.mk .instanceNorm1d m.num_features 0 false [])) ∧
    (m.cls = PyClass.batchNorm2d → batchnorm_to_instancenorm m =
      some (.mk .instanceNorm2d m.num_features 0 false [])) ∧
    (m.cls = PyClass.batchNorm3d → batchnorm_to_instancenorm m =
      some (.mk .instanceNorm3d m.num_features 0 false [])) := by
  refine ⟨fun h => ?_, fun h => ?_, fun h => ?_⟩ <;>
    simp [batchnorm_to_instancenorm, matchDim, isinstance, h, isSubclass]

/-- C7, witness: a rank-2 batch-norm node with 16 channels becomes a
rank-2 instance-norm node with 16 channels. -/
theorem c7_instancenorm_witness :
    batchnorm_to_instancenorm (bn2Leaf 16) =
      some (.mk .instanceNorm2d 16 0 false []) :=
  (c7_instancenorm (bn2Leaf 16)).2.1 rfl

/-- C8: on a node that is not an instance of `BatchNorm1d`, `BatchNorm2d`
or `BatchNorm3d` (no spatial rank), the `matchDim` dispatch yields `None`
and `batchnorm_to_instancenorm` fails (raises) instead of returning a
node. -/
theorem c8_instancenorm_fails (m : Module)
    (h1 : isinstance m .batchNorm1d = false)
    (h2 : isinstance m .batchNorm2d = false)
    (h3 : isinstance m .batchNorm3d = false) :
    batchnorm_to_instancenorm m = none := by
  simp [batchnorm_to_instancenorm, matchDim, h1, h2, h3]

/-- C8, witness: a node of the abstract `_BatchNorm` class itself has no
rank and the conversion fails. -/
theorem c8_instancenorm_fails_witness :
    batchnorm_to_instancenorm bnBaseLeaf = none :=
  c8_instancenorm_fails bnBaseLeaf (by decide) (by decide) (by decide)

/-- C10: the module's converters are pure functions of the input's
runtime class and channel count alone, and build fresh childless nodes;
in the root-replacement case `replace_all_modules` returns exactly the
converter's output. Mutation of the original root cannot occur: no
converter writes to its input. -/
theorem c10_converters_pure :
    (∀ (root : Module) (t : PyClass) (conv : Module → Option Module),
      isinstance root t = true → replace_all_modules root t conv = conv root) ∧
    (∀ m m' : Module, m.cls = m'.cls → m.num_features = m'.num_features →
      batchnorm_to_instancenorm m = batchnorm_to_instancenorm m') ∧
    (∀ m m' : Module, m.num_features = m'.num_features →
      batchnorm_to_groupnorm m = batchnorm_to_groupnorm m') ∧
    (∀ m : Module, (batchnorm_to_groupnorm m).children = []) ∧
    (∀ m x : Module, batchnorm_to_instancenorm m = some x →
      x.children = []) ∧
    identityNode.children = [] := by
  refine ⟨?_, ?_, ?_, ?_, ?_, rfl⟩
  · intro root t conv h
    rw [replace_all_modules, if_pos h]
  · intro m m' hcls hnf
    simp only [batchnorm_to_instancenorm, matchDim, isinstance, hcls, hnf]
  · intro m m' hnf
    simp only [batchnorm_to_groupnorm, hnf]
  · intro m
    rfl
  · intro m x h
    rw [batchnorm_to_instancenorm, matchDim] at h
    split_ifs at h <;> cases h <;> rfl

/-- C10, witness: concrete instantiations of every conjunct. -/
theorem c10_converters_pure_witness :
    replace_all_modules (bn2Leaf 5) .batchNormBase
      (fun _ => some identityNode) = some identityNode ∧
    batchnorm_to_instancenorm (bn2Leaf 6) =
      batchnorm_to_instancenorm (.mk .batchNorm2d 6 9 true [("x", linLeaf)]) ∧
    batchnorm_to_groupnorm (bn2Leaf 7) =
      batchnorm_to_groupnorm (.mk .groupNorm 7 0 false []) ∧
    (batchnorm_to_groupnorm (bn2Leaf 7)).children = [] ∧
    identityNode.children = [] := by
  obtain ⟨h1, h2, h3, h4, _, h6⟩ := c10_converters_pure
  exact ⟨h1 _ _ _ (by decide), h2 _ _ rfl rfl, h3 _ _ rfl, h4 _, h6⟩

/-- C5: on a well-formed tree whose root does not match and that contains
exactly one matching node, at name `nm` (path `pySplit nm`), the call
succeeds; the node at that path in the result is the converter's output
on the original node there; every path neither extending nor extended by
it is unchanged; and the root keeps its class (it is the same, mutated,
root object). -/
theorem c5_single_match (T : Module) (X : PyClass)
    (conv : Module → Option Module) (nm : String) (x y : Module)
    (hwf : wfM T = true)
    (hroot : isinstance T X = false)
    (hone : (namedModules "" T).filter (fun p => isinstance p.2 X) = [(nm, x)])
    (hconv : conv x = some y) :
    (replace_all_modules T X conv).bind
      (fun T2 => getPath T2 (pySplit nm)) = some y ∧
    (∀ q, isPre (pySplit nm) q = false → isPre q (pySplit nm) = false →
      (replace_all_modules T X conv).bind (fun T2 => getPath T2 q) =
        getPath T q) ∧
    (replace_all_modules T X conv).map Module.cls = some T.cls := by
  have hmemf : (nm, x) ∈ (namedModules "" T).filter
      (fun p => isinstance p.2 X) := by
    rw [hone]; exact List.mem_cons_self _ _
  have hmem : (nm, x) ∈ namedModules "" T := (List.mem_filter.1 hmemf).1
  have hbn : isinstance x X = true := by
    simpa using (List.mem_filter.1 hmemf).2
  have hg : getPath T (pySplit nm) = some x := by
    rcases namedModules_sound hwf hmem with ⟨_, hx⟩ | hx
    · rw [hx] at hbn
      rw [hbn] at hroot
      cases hroot
    · exact hx
  obtain ⟨T', hT'⟩ := setAt_succeeds hg hconv (pySplit_ne_nil nm)
  have hrun : replace_all_modules T X conv = some T' := by
    rw [replace_all_modules, if_neg (by rw [hroot]; simp), hone,
      List.foldlM_cons, _replace_child, hT']
    simp [List.foldlM_nil]
  obtain ⟨old, new, hold, hnew, hget⟩ := setAt_getPath hT'
  have hox : old = x := by
    rw [hg] at hold
    cases hold
    rfl
  subst hox
  have hny : new = y := by
    rw [hconv] at hnew
    cases hnew
    rfl
  subst hny
  refine ⟨?_, ?_, ?_⟩
  · rw [hrun, Option.some_bind, hget]
  · intro q h1 h2
    rw [hrun, Option.some_bind]
    exact setAt_frame hT' q h1 h2
  · obtain ⟨x0, x', hg0, hg1, hcls, _⟩ :=
      setAt_spine hT' [] (isPre_nil_left _) (Ne.symm (pySplit_ne_nil nm))
    rw [getPath_nil] at hg0 hg1
    cases hg0
    cases hg1
    rw [hrun, Option.map_some', hcls]

/-- C5, witness: in the two-child tree the single batch-norm child at
name `"a"` becomes its group-norm conversion, the sibling path `["b"]` is
untouched, and the root class is preserved. -/
theorem c5_single_match_witness :
    (replace_all_modules exTreeBN .batchNormBase
        (fun m => some (batchnorm_to_groupnorm m))).bind
      (fun T2 => getPath T2 (pySplit "a")) =
      some (batchnorm_to_groupnorm (bn2Leaf 10)) ∧
    (replace_all_modules exTreeBN .batchNormBase
        (fun m => some (batchnorm_to_groupnorm m))).bind
      (fun T2 => getPath T2 ["b"]) = getPath exTreeBN ["b"] ∧
    (replace_all_modules exTreeBN .batchNormBase
        (fun m => some (batchnorm_to_groupnorm m))).map Module.cls =
      some exTreeBN.cls := by
  have h := c5_single_match exTreeBN .batchNormBase
    (fun m => some (batchnorm_to_groupnorm m)) "a" (bn2Leaf 10)
    (batchnorm_to_groupnorm (bn2Leaf 10))
    (by simp [exTreeBN, wfM_mk, bn2Leaf, linLeaf, keysNodupB]; decide)
    (by decide)
    (by simp [exTreeBN, namedModules_mk, dotJoin_empty, bn2Leaf, linLeaf,
      List.filter_cons, isinstance, isSubclass, Module.cls])
    rfl
  exact ⟨h.1, h.2.1 ["b"] (by decide) (by decide), h.2.2⟩

/-- C9: `nullify_batchnorm_modules` is idempotent on well-formed trees:
running it a second time on the result of a successful first run returns
that result unchanged, because no node matching `_BatchNorm` remains; a
failing first run makes the composition fail the same way. -/
theorem c9_nullify_idempotent (T : Module) (t1 t2 : PyClass)
    (hwf : wfM T = true) :
    (nullify_batchnorm_modules T t1).bind
      (fun T2 => nullify_batchnorm_modules T2 t2) =
      nullify_batchnorm_modules T t1 := by
  by_cases hr : isinstance T .batchNormBase = true
  · rw [nullify_batchnorm_modules, replace_all_modules, if_pos hr,
      Option.some_bind, nullify_batchnorm_modules, replace_all_modules,
      if_neg (by decide), namedModules_identityNode]
    simp [List.filter_cons, List.foldlM_nil, isinstance_identityNode_bn]
  · have hr' : isinstance T .batchNormBase = false := by
      revert hr; cases isinstance T PyClass.batchNormBase <;> simp
    rw [nullify_batchnorm_modules, replace_all_modules,
      if_neg (by rw [hr']; simp)]
    cases hfold : ((namedModules "" T).filter
        (fun p => isinstance p.2 .batchNormBase)).foldlM
        (fun r p => _replace_child r p.1 (fun _ => some identityNode)) T with
    | none => rfl
    | some T' =>
      rw [Option.some_bind]
      have hinv : ∀ q x, getPath T q = some x →
          isinstance x .batchNormBase = true →
          ∃ pr ∈ (namedModules "" T).filter
            (fun p => isinstance p.2 .batchNormBase), pySplit pr.1 = q := by
        intro q x hg hbn
        cases q with
        | nil =>
          rw [getPath_nil] at hg
          cases hg
          rw [hbn] at hr'
          cases hr'
        | cons k ks =>
          obtain ⟨nm, hmem, hsp⟩ :=
            namedModules_complete hwf hg (by simp)
          exact ⟨(nm, x), List.mem_filter.2 ⟨hmem, by simpa using hbn⟩, hsp⟩
      obtain ⟨hwf', hnobn⟩ := nullify_fold _ T T' hwf hinv hfold
      have hr2 : isinstance T' .batchNormBase = false :=
        hnobn [] T' (getPath_nil T')
      rw [nullify_batchnorm_modules, replace_all_modules,
        if_neg (by rw [hr2]; simp)]
      have hfil : (namedModules "" T').filter
          (fun p => isinstance p.2 .batchNormBase) = [] := by
        rw [List.filter_eq_nil_iff]
        intro pr hpr
        rcases namedModules_sound hwf' hpr with ⟨_, hx⟩ | hx
        · rw [hx, hr2]
          simp
        · rw [hnobn _ _ hx]
          simp
      rw [hfil, List.foldlM_nil]
      rfl

/-- C9, witness: on the concrete two-child tree, nullifying twice equals
nullifying once (the intermediate values of the unused `target_class`
argument differ on purpose). -/
theorem c9_nullify_idempotent_witness :
    (nullify_batchnorm_modules exTreeBN .linear).bind
      (fun T2 => nullify_batchnorm_modules T2 .groupNorm) =
      nullify_batchnorm_modules exTreeBN .linear :=
  c9_nullify_idempotent exTreeBN .linear .groupNorm
    (by simp [exTreeBN, wfM_mk, bn2Leaf, linLeaf, keysNodupB]; decide)

end TorchDP
